import Mathlib

/-!
Shallow embedding of the temporal-linking stage of the tracking pipeline
(`ultrack/core/linking/processing.py`, function `_process`), together with
theorems settling the specification claims about it.

Numeric conventions: Python floats are modelled by rationals, node
identifiers and bounding-box corners by integers.  The scipy KDTree
bounded-radius query and the image-derived feature functions are external
collaborators of the analyzed unit; they enter the model as explicit
function parameters (`dist`, `currFeat`, `nextFeat`, `nextFeatStd`) and a
model of the documented query contract (`queryKD`).  Fallible numpy
operations are modelled by `Option`: `processLinks` returns `none`
exactly where the source raises.
-/

namespace Ultrack

/-- A detected region at one time step (class `Node`): identifier, centroid
and axis-aligned bounding box stored as min corners followed by max corners. -/
structure Node where
  id : ℤ
  centroid : List ℚ
  bbox : List ℤ
deriving DecidableEq, Repr

/-- A produced candidate edge: one row of the dataframe written to the
link table (columns weight, source id, target id). -/
structure Link where
  weight : ℚ
  source_id : ℤ
  target_id : ℤ
deriving DecidableEq, Repr

/-- The linking parameters consumed by `_process`. -/
structure LinkingConfig where
  max_neighbors : ℕ
  max_distance : ℚ
  distance_weight : ℚ
  z_score_threshold : ℚ
deriving DecidableEq, Repr

/-- External collaborators of `_process`: the metric used by the spatial
query, the bounding-box overlap score `Node.IoU`, and the image feature
functions (`Node.intensity_mean` at times t and t+1, `Node.intensity_std`
at time t+1).  `colorActive` models `len(images) > 0`. -/
structure ProcEnv where
  dist : List ℚ → List ℚ → ℚ
  iou : Node → Node → ℚ
  colorActive : Bool
  currFeat : Node → List ℚ
  nextFeat : Node → List ℚ
  nextFeatStd : Node → List ℚ

/-- Placeholder node used for out-of-range list lookups in the model. -/
def dummyNode : Node := ⟨0, [], []⟩

/-- Python trailing slice `l[-n:]` for `1 ≤ n` (the model never takes the
`n = 0` branch of the Python semantics). -/
def takeRight {α : Type} (n : ℕ) (l : List α) : List α :=
  l.drop (l.length - n)

/-! ### A generic insertion sort, modelling Python `sorted` -/

/-- Insert `x` before the first element `y` with `le x y`. -/
def insertGe {α : Type} (le : α → α → Bool) (x : α) : List α → List α
  | [] => [x]
  | y :: ys => if le x y then x :: y :: ys else y :: insertGe le x ys

/-- Stable insertion sort by the boolean relation `le`; with a total
transitive `le` this is extensionally Python `sorted` under the
corresponding comparison. -/
def sortByKey {α : Type} (le : α → α → Bool) : List α → List α
  | [] => []
  | x :: xs => insertGe le x (sortByKey le xs)

/-! ### The ranking key of the scoring loop -/

/-- The 4-tuple appended to `neighborhood` at line 160: edge weight, negated
distance, current-candidate node id, next node id. -/
abbrev Tup : Type := ℚ × ℚ × ℤ × ℤ

/-- The lexicographic key under which Python compares those tuples. -/
def tupKey (t : Tup) : Lex (ℚ × Lex (ℚ × Lex (ℤ × ℤ))) :=
  toLex (t.1, toLex (t.2.1, toLex (t.2.2.1, t.2.2.2)))

/-- Tuple `a` sorts no later than tuple `b` in
`sorted(neighborhood, reverse=True)` at line 163. -/
def tupGe (a b : Tup) : Prop := tupKey b ≤ tupKey a

instance : DecidableRel tupGe := fun a b => by
  unfold tupGe
  infer_instance

/-- Boolean form of `tupGe`, fed to the insertion sort. -/
def tupGeb (a b : Tup) : Bool := decide (tupGe a b)

/-- One slot of a KDTree query result: a distance paired with a neighbor
index, where `none` stands for the infinite-distance sentinel reported for
missing neighbors. -/
abbrev QEntry : Type := Option ℚ × ℕ

/-- Ascending (distance, index) comparison on query slots, infinite
distances last. -/
def entryLeb (a b : QEntry) : Bool :=
  match a.1, b.1 with
  | some x, some y => decide (x < y ∨ (x = y ∧ a.2 ≤ b.2))
  | some _, none => true
  | none, some _ => false
  | none, none => decide (a.2 ≤ b.2)

/-! ### Coordinate alignment (lines 92 to 103) -/

/-- Line 95: `n_dim = next_pos.shape[1]`, the centroid dimensionality of the
next-time nodes, defined when that list is nonempty. -/
def nDim (nns : List Node) : ℕ := ((nns.headD dummyNode).centroid).length

/-- Line 96: `next_shift[:, -n_dim:]`, the trailing D components of every
stored shift row. -/
def truncShifts (D : ℕ) (shiftRows : List (List ℚ)) : List (List ℚ) :=
  shiftRows.map (takeRight D)

/-- Line 97: `next_pos += next_shift`, centroids of next-time nodes
corrected by the truncated shifts. -/
def rawNextPos (D : ℕ) (nns : List Node) (shiftRows : List (List ℚ)) : List (List ℚ) :=
  List.zipWith (fun nd sh => List.zipWith (· + ·) nd.centroid sh) nns (truncShifts D shiftRows)

/-- Lines 99 to 103: optional anisotropic scaling of a position array by the
trailing `min(D, len(scale))` entries of the scale vector. -/
def applyScale (scale : Option (List ℚ)) (D : ℕ) (rows : List (List ℚ)) : List (List ℚ) :=
  match scale with
  | none => rows
  | some s =>
    let m := min D s.length
    rows.map (fun r => List.zipWith (· * ·) (takeRight m r) (takeRight m s))

/-- Aligned, scaled positions of the current-time nodes. -/
def cposArr (scale : Option (List ℚ)) (D : ℕ) (cns : List Node) : List (List ℚ) :=
  applyScale scale D (cns.map Node.centroid)

/-- Aligned, scaled positions of the next-time nodes. -/
def nposArr (scale : Option (List ℚ)) (D : ℕ) (nns : List Node)
    (shiftRows : List (List ℚ)) : List (List ℚ) :=
  applyScale scale D (rawNextPos D nns shiftRows)

/-! ### The bounded-radius spatial query (lines 107 to 114) -/

/-- Model of `KDTree(current_pos).query(p, k=2*max_neighbors,
distance_upper_bound=max_distance)` for one query point: the k nearest
in-radius current positions in ascending (distance, index) order, with
missing slots filled by the sentinel pair of an infinite distance and the
out-of-range index `len(current_pos)`. -/
def queryKD (d : List ℚ → List ℚ → ℚ) (cps : List (List ℚ)) (p : List ℚ)
    (k : ℕ) (bound : ℚ) : List QEntry :=
  let cands : List QEntry := (List.range cps.length).filterMap
    (fun j => if d (cps.getD j []) p ≤ bound then some (some (d (cps.getD j []) p), j) else none)
  let kept := (sortByKey entryLeb cands).take k
  kept ++ List.replicate (k - kept.length) ((none, cps.length) : QEntry)

/-! ### The color filter (lines 116 to 138) -/

/-- Line 133: standard deviations at or below 1e-6 are replaced by 1. -/
def floorStd (x : ℚ) : ℚ := if x ≤ 1 / 1000000 then 1 else x

/-- Maximum entry of a list of rationals, modelling `.max(axis=-1)` on the
channel axis (the source never applies it to an empty axis). -/
def listMax : List ℚ → ℚ
  | [] => 0
  | [x] => x
  | x :: y :: t => max x (listMax (y :: t))

/-- Lines 118 to 126: mean-intensity rows of the current nodes with the
all-zero dummy row appended for sentinel neighbor indices. -/
def currFeatTable (env : ProcEnv) (cns : List Node) : List (List ℚ) :=
  let rows := cns.map env.currFeat
  rows ++ [List.replicate (rows.headD []).length 0]

/-- Lines 127 to 138: the color filter decision for the pair of a next-time
node and the neighbor slot holding current-feature row index `idx`; always
true when no images were supplied. -/
def filteredByColor (env : ProcEnv) (cfg : LinkingConfig) (cns : List Node)
    (nd : Node) (idx : ℕ) : Bool :=
  if env.colorActive then
    let cf := (currFeatTable env cns).getD idx []
    let sf := (env.nextFeatStd nd).map floorStd
    let diffs := List.zipWith (· / ·) (List.zipWith (· - ·) (env.nextFeat nd) cf) sf
    decide (listMax (diffs.map (fun q => |q|)) ≤ cfg.z_score_threshold)
  else true

/-! ### Bounding-box translation (lines 140 to 144) -/

/-- numpy `round`: round half to even. -/
def roundHalfEven (q : ℚ) : ℤ :=
  let f := ⌊q⌋
  if q - f < 1 / 2 then f
  else if 1 / 2 < q - f then f + 1
  else if f % 2 = 0 then f else f + 1

/-- Lines 143 and 144 for one node: `bbox[:n_dim] += shift` followed by
`bbox[-n_dim:] += shift`, for a bounding box stored as D min corners
followed by D max corners and an integer shift of length D. -/
def translateBBox (D : ℕ) (sh : List ℤ) (bbox : List ℤ) : List ℤ :=
  let b1 := List.zipWith (· + ·) (bbox.take D) sh ++ bbox.drop D
  b1.take (b1.length - D) ++ List.zipWith (· + ·) (b1.drop (b1.length - D)) sh

/-- A next-time node with its bounding box translated by its rounded shift. -/
def translateNode (D : ℕ) (sh : List ℚ) (nd : Node) : Node :=
  { nd with bbox := translateBBox D (sh.map roundHalfEven) nd.bbox }

/-! ### Scoring, ranking and truncation (lines 146 to 168) -/

/-- Lines 150 to 161: the `neighborhood` tuples built for one next-time node
from its query row, keeping the finite-distance slots that passed the color
filter.  `transNd` is the node as seen by the loop (bounding box already
translated), `rawNd` the node as seen by the color filter (untranslated). -/
def nodeTuples (env : ProcEnv) (cfg : LinkingConfig) (cns : List Node)
    (transNd rawNd : Node) (row : List QEntry) : List Tup :=
  (row.filter (fun e => e.1.isSome && filteredByColor env cfg cns rawNd e.2)).filterMap
    (fun e => e.1.map (fun dv =>
      ((env.iou transNd (cns.getD e.2 dummyNode) - cfg.distance_weight * dv,
        -dv, (cns.getD e.2 dummyNode).id, transNd.id) : Tup)))

/-- Line 163: `sorted(neighborhood, reverse=True)[: config.max_neighbors]`. -/
def nodeNeighborhood (env : ProcEnv) (cfg : LinkingConfig) (cns : List Node)
    (transNd rawNd : Node) (row : List QEntry) : List Tup :=
  (sortByKey tupGeb (nodeTuples env cfg cns transNd rawNd row)).take cfg.max_neighbors

/-- The whole of `_process` between the database read and the database
write: from the node lists, stored shift rows and optional scale to the
dataframe rows appended to the link table.  Returns `none` exactly where
the source raises: on an empty next-time node list (`next_pos.shape[1]`,
line 95), on an empty current-time node list (`KDTree` on empty 1-D data,
line 107), and when no link was produced (`np.asarray([])` indexed with two
axes, line 167). -/
def processLinks (env : ProcEnv) (cfg : LinkingConfig) (cns nns : List Node)
    (shiftRows : List (List ℚ)) (scale : Option (List ℚ)) : Option (List Link) :=
  if nns.isEmpty then none
  else if cns.isEmpty then none
  else
    let D := nDim nns
    let cpos := cposArr scale D cns
    let npos := nposArr scale D nns shiftRows
    let rows := npos.map (fun p => queryKD env.dist cpos p (2 * cfg.max_neighbors) cfg.max_distance)
    let allTuples := (nns.zip ((truncShifts D shiftRows).zip rows)).flatMap
      (fun x => nodeNeighborhood env cfg cns (translateNode D x.2.1 x.1) x.1 x.2.2)
    if allTuples.isEmpty then none
    else some (allTuples.map (fun t => ⟨t.1, t.2.2.1, t.2.2.2⟩))

/-! ### Concrete instances used to exercise the theorems -/

/-- Restatement of the specification sentence for the color filter, used as
the spec side of the refinement claim about it: per channel, the
normalized deviation is the absolute feature difference divided by the
floored standard deviation, and a candidate passes iff every channel
deviation is at most the threshold (equivalently, iff their maximum is). -/
def colorPassSpec (thr : ℚ) (nf cf sf : List ℚ) : Prop :=
  ∀ i, i < nf.length → i < cf.length → i < sf.length →
    |nf.getD i 0 - cf.getD i 0| / floorStd (sf.getD i 0) ≤ thr

/-- Concrete environment: Chebyshev metric, an overlap score distinguishing
only equal boxes, color filtering inactive. -/
def envW : ProcEnv :=
  { dist := fun a b => listMax (List.zipWith (fun x y => |x - y|) a b)
    iou := fun a b => if a.bbox = b.bbox then 1 else 1 / 2
    colorActive := false
    currFeat := fun _ => []
    nextFeat := fun _ => []
    nextFeatStd := fun _ => [] }

/-- Variant of `envW` with color filtering active and one feature channel. -/
def envC : ProcEnv :=
  { envW with
    colorActive := true
    currFeat := fun _ => [1]
    nextFeat := fun _ => [3]
    nextFeatStd := fun _ => [2] }

/-- Variant of `envW` with a constant metric and constant overlap score,
used to exercise tie-breaking. -/
def envTie : ProcEnv :=
  { envW with
    dist := fun _ _ => 1
    iou := fun _ _ => 0 }

/-- Concrete configuration: keep 1 neighbor, radius 5, distance weight 1/10. -/
def cfgW : LinkingConfig := ⟨1, 5, 1 / 10, 1⟩

/-- Concrete configuration for tie-breaking: keep 2 neighbors, no distance
weight. -/
def cfgTie : LinkingConfig := ⟨2, 5, 0, 1⟩

/-- Current-time node close to `nodeC`. -/
def nodeA : Node := ⟨1, [5, 5], [0, 0, 10, 10]⟩

/-- Current-time node far from `nodeC`. -/
def nodeB : Node := ⟨2, [25, 25], [20, 20, 30, 30]⟩

/-- Next-time node. -/
def nodeC : Node := ⟨3, [6, 6], [1, 1, 11, 11]⟩

/-- Two current-time nodes at the same position with distinct identifiers. -/
def cnsTie : List Node := [⟨1, [0], [0, 1]⟩, ⟨2, [0], [0, 1]⟩]

/-- Next-time node for the tie-breaking scenario. -/
def nodeTie : Node := ⟨5, [0], [0, 1]⟩

/-! ### Claim theorems -/

/-- Environment that differs from `envC` only in the feature it reports for
nodes with the translated bounding box of `nodeC` under shift row
`[0, 0, 10]`. -/
def envSeven : ProcEnv :=
  { envC with
    nextFeat := fun nd => if nd.bbox = [1, 11, 11, 21] then [99] else [3] }

/-! ### Theorems -/

theorem mem_insertGe {α : Type} (le : α → α → Bool) (x a : α) (l : List α) :
    a ∈ insertGe le x l ↔ a = x ∨ a ∈ l := by
  induction l with
  | nil => simp [insertGe]
  | cons y ys ih =>
    by_cases h : le x y
    · simp [insertGe, h]
    · simp only [insertGe, h, Bool.false_eq_true, if_false, List.mem_cons, ih]
      tauto

theorem mem_sortByKey {α : Type} (le : α → α → Bool) (a : α) (l : List α) :
    a ∈ sortByKey le l ↔ a ∈ l := by
  induction l with
  | nil => simp [sortByKey]
  | cons x xs ih => simp [sortByKey, mem_insertGe, ih]

theorem length_insertGe {α : Type} (le : α → α → Bool) (x : α) (l : List α) :
    (insertGe le x l).length = l.length + 1 := by
  induction l with
  | nil => simp [insertGe]
  | cons y ys ih =>
    by_cases h : le x y <;> simp [insertGe, h, ih]

theorem length_sortByKey {α : Type} (le : α → α → Bool) (l : List α) :
    (sortByKey le l).length = l.length := by
  induction l with
  | nil => rfl
  | cons x xs ih => simp [sortByKey, length_insertGe, ih]

theorem pairwise_insertGe {α : Type} (le : α → α → Bool)
    (htot : ∀ a b, le a b = true ∨ le b a = true)
    (htr : ∀ a b c, le a b = true → le b c = true → le a c = true)
    (x : α) : ∀ (l : List α), l.Pairwise (fun a b => le a b = true) →
    (insertGe le x l).Pairwise (fun a b => le a b = true) := by
  intro l
  induction l with
  | nil => intro _; simp [insertGe]
  | cons y ys ih =>
    intro hl
    have hy : ∀ b ∈ ys, le y b = true := fun b hb => List.rel_of_pairwise_cons hl hb
    have hys : ys.Pairwise (fun a b => le a b = true) := hl.of_cons
    by_cases h : le x y = true
    · have hins : insertGe le x (y :: ys) = x :: y :: ys := by
        simp [insertGe, h]
      rw [hins]
      refine List.Pairwise.cons ?_ hl
      intro b hb
      rcases List.mem_cons.mp hb with rfl | hb
      · exact h
      · exact htr x y b h (hy b hb)
    · have hins : insertGe le x (y :: ys) = y :: insertGe le x ys := by
        simp [insertGe, h]
      rw [hins]
      refine List.Pairwise.cons ?_ (ih hys)
      intro b hb
      rcases (mem_insertGe le x b ys).mp hb with hbx | hb
      · rcases htot x y with hxy | hyx
        · exact absurd hxy h
        · rw [hbx]; exact hyx
      · exact hy b hb

theorem pairwise_sortByKey {α : Type} (le : α → α → Bool)
    (htot : ∀ a b, le a b = true ∨ le b a = true)
    (htr : ∀ a b c, le a b = true → le b c = true → le a c = true)
    (l : List α) :
    (sortByKey le l).Pairwise (fun a b => le a b = true) := by
  induction l with
  | nil => exact List.Pairwise.nil
  | cons x xs ih => exact pairwise_insertGe le htot htr x (sortByKey le xs) ih

theorem tupGeb_total : ∀ a b, tupGeb a b = true ∨ tupGeb b a = true := by
  intro a b
  unfold tupGeb tupGe
  rcases le_total (tupKey a) (tupKey b) with h | h
  · right; exact decide_eq_true h
  · left; exact decide_eq_true h

theorem tupGeb_trans :
    ∀ a b c, tupGeb a b = true → tupGeb b c = true → tupGeb a c = true := by
  intro a b c hab hbc
  unfold tupGeb tupGe at *
  exact decide_eq_true (le_trans (of_decide_eq_true hbc) (of_decide_eq_true hab))

/-! ### Membership and length lemmas about the model -/

theorem length_applyScale (scale : Option (List ℚ)) (D : ℕ) (rows : List (List ℚ)) :
    (applyScale scale D rows).length = rows.length := by
  cases scale <;> simp [applyScale]

theorem length_cposArr (scale : Option (List ℚ)) (D : ℕ) (cns : List Node) :
    (cposArr scale D cns).length = cns.length := by
  simp [cposArr, length_applyScale]

theorem length_nposArr (scale : Option (List ℚ)) (D : ℕ) (nns : List Node)
    (shiftRows : List (List ℚ)) :
    (nposArr scale D nns shiftRows).length = min nns.length shiftRows.length := by
  simp [nposArr, rawNextPos, truncShifts, length_applyScale]

theorem mem_queryKD {d : List ℚ → List ℚ → ℚ} {cps : List (List ℚ)} {p : List ℚ}
    {k : ℕ} {bound : ℚ} {e : QEntry} (he : e ∈ queryKD d cps p k bound) :
    e = ((none, cps.length) : QEntry) ∨
      ∃ j, j < cps.length ∧ e = (some (d (cps.getD j []) p), j) ∧
        d (cps.getD j []) p ≤ bound := by
  unfold queryKD at he
  rcases List.mem_append.mp he with hk | hrep
  · have hs := List.take_subset _ _ hk
    have hc := (mem_sortByKey entryLeb e _).mp hs
    rcases List.mem_filterMap.mp hc with ⟨j, hj, hje⟩
    rw [List.mem_range] at hj
    by_cases hb : d (cps.getD j []) p ≤ bound
    · rw [if_pos hb] at hje
      exact Or.inr ⟨j, hj, (Option.some.inj hje).symm, hb⟩
    · rw [if_neg hb] at hje
      cases hje
  · exact Or.inl (List.eq_of_mem_replicate hrep)

theorem mem_nodeTuples {env : ProcEnv} {cfg : LinkingConfig} {cns : List Node}
    {transNd rawNd : Node} {row : List QEntry} {t : Tup}
    (ht : t ∈ nodeTuples env cfg cns transNd rawNd row) :
    ∃ e ∈ row, ∃ dv : ℚ, e.1 = some dv ∧
      filteredByColor env cfg cns rawNd e.2 = true ∧
      t = ((env.iou transNd (cns.getD e.2 dummyNode) - cfg.distance_weight * dv,
            -dv, (cns.getD e.2 dummyNode).id, transNd.id) : Tup) := by
  unfold nodeTuples at ht
  rcases List.mem_filterMap.mp ht with ⟨e, he, hmap⟩
  obtain ⟨he_row, hcond⟩ := List.mem_filter.mp he
  rw [Bool.and_eq_true] at hcond
  obtain ⟨hsome, hcolor⟩ := hcond
  rcases Option.isSome_iff_exists.mp hsome with ⟨dv, hdv⟩
  refine ⟨e, he_row, dv, hdv, hcolor, ?_⟩
  rw [hdv] at hmap
  simp only [Option.map_some'] at hmap
  exact (Option.some.inj hmap).symm

theorem mem_nodeNeighborhood {env : ProcEnv} {cfg : LinkingConfig} {cns : List Node}
    {transNd rawNd : Node} {row : List QEntry} {t : Tup}
    (ht : t ∈ nodeNeighborhood env cfg cns transNd rawNd row) :
    t ∈ nodeTuples env cfg cns transNd rawNd row := by
  unfold nodeNeighborhood at ht
  exact (mem_sortByKey tupGeb t _).mp (List.take_subset _ _ ht)

theorem length_nodeNeighborhood (env : ProcEnv) (cfg : LinkingConfig) (cns : List Node)
    (transNd rawNd : Node) (row : List QEntry) :
    (nodeNeighborhood env cfg cns transNd rawNd row).length ≤ cfg.max_neighbors := by
  unfold nodeNeighborhood
  exact (List.length_take_le _ _)

theorem links_inversion {env : ProcEnv} {cfg : LinkingConfig} {cns nns : List Node}
    {shiftRows : List (List ℚ)} {scale : Option (List ℚ)} {links : List Link}
    (hres : processLinks env cfg cns nns shiftRows scale = some links)
    {lk : Link} (hmem : lk ∈ links) :
    ∃ i j dv, i < nns.length ∧ i < shiftRows.length ∧ j < cns.length ∧
      dv = env.dist ((cposArr scale (nDim nns) cns).getD j [])
                    ((nposArr scale (nDim nns) nns shiftRows).getD i []) ∧
      dv ≤ cfg.max_distance ∧
      filteredByColor env cfg cns (nns.getD i dummyNode) j = true ∧
      lk = ⟨env.iou
              (translateNode (nDim nns) (takeRight (nDim nns) (shiftRows.getD i []))
                (nns.getD i dummyNode))
              (cns.getD j dummyNode)
              - cfg.distance_weight * dv,
            (cns.getD j dummyNode).id, (nns.getD i dummyNode).id⟩ := by
  simp only [processLinks] at hres
  split at hres
  · cases hres
  split at hres
  · cases hres
  split at hres
  · cases hres
  injection hres with hres
  subst hres
  rcases List.mem_map.mp hmem with ⟨t, ht_all, rfl⟩
  rcases List.mem_flatMap.mp ht_all with ⟨x, hx, ht⟩
  rcases List.mem_iff_getElem.mp hx with ⟨i, hi, hxi⟩
  have hlen_zip := hi
  rw [List.length_zip, List.length_zip, List.length_map, length_nposArr] at hlen_zip
  have hi_n : i < nns.length := by
    simp only [truncShifts, List.length_map] at hlen_zip; omega
  have hi_s : i < shiftRows.length := by
    simp only [truncShifts, List.length_map] at hlen_zip; omega
  rw [List.getElem_zip, List.getElem_zip] at hxi
  subst hxi
  have hb1 : i < (truncShifts (nDim nns) shiftRows).length := by
    simp only [truncShifts, List.length_map]
    exact hi_s
  have hb2 : i < ((nposArr scale (nDim nns) nns shiftRows).map
      (fun p => queryKD env.dist (cposArr scale (nDim nns) cns) p
        (2 * cfg.max_neighbors) cfg.max_distance)).length := by
    simp only [List.length_map, length_nposArr]
    omega
  have htr : (truncShifts (nDim nns) shiftRows)[i] =
      takeRight (nDim nns) (shiftRows.getD i []) := by
    simp only [truncShifts, List.getElem_map, List.getD_eq_getElem _ _ hi_s]
  have hrow : ((nposArr scale (nDim nns) nns shiftRows).map
        (fun p => queryKD env.dist (cposArr scale (nDim nns) cns) p
          (2 * cfg.max_neighbors) cfg.max_distance))[i] =
      queryKD env.dist (cposArr scale (nDim nns) cns)
        ((nposArr scale (nDim nns) nns shiftRows).getD i [])
        (2 * cfg.max_neighbors) cfg.max_distance := by
    rw [List.getElem_map]
    congr 1
    rw [List.getD_eq_getElem]
  rw [htr, hrow] at ht
  have ht' := mem_nodeNeighborhood ht
  rcases mem_nodeTuples ht' with ⟨e, he_row, dv, hdv, hcolor, rfl⟩
  rcases mem_queryKD he_row with hsent | ⟨j, hj, hej, hb⟩
  · rw [hsent] at hdv
    cases hdv
  · have hj' : e.2 = j := by rw [hej]
    have hdval : dv = env.dist ((cposArr scale (nDim nns) cns).getD j [])
        ((nposArr scale (nDim nns) nns shiftRows).getD i []) := by
      rw [hej] at hdv
      exact (Option.some.inj hdv).symm
    refine ⟨i, j, dv, hi_n, hi_s, ?_, hdval, hdval ▸ hb, ?_, ?_⟩
    · rw [length_cposArr] at hj
      exact hj
    · rw [← hj', List.getD_eq_getElem _ _ hi_n]
      exact hcolor
    · rw [hj', List.getD_eq_getElem _ _ hi_n]
      rfl

theorem translateNode_id (D : ℕ) (sh : List ℚ) (nd : Node) :
    (translateNode D sh nd).id = nd.id := rfl

theorem nodeTuples_target {env : ProcEnv} {cfg : LinkingConfig} {cns : List Node}
    {transNd rawNd : Node} {row : List QEntry} {t : Tup}
    (ht : t ∈ nodeTuples env cfg cns transNd rawNd row) : t.2.2.2 = transNd.id := by
  rcases mem_nodeTuples ht with ⟨e, _, dv, _, _, rfl⟩
  rfl

theorem length_currFeatTable (env : ProcEnv) (cns : List Node) :
    (currFeatTable env cns).length = cns.length + 1 := by
  simp [currFeatTable]

theorem countP_flatMap {α β : Type} (f : α → List β) (p : β → Bool) :
    ∀ l : List α, (l.flatMap f).countP p = (l.map (fun a => (f a).countP p)).sum := by
  intro l
  induction l with
  | nil => simp
  | cons a t ih => simp [List.flatMap_cons, List.countP_append, ih]

theorem sum_le_of_chunks {α : Type} (g : α → ℕ) (q : α → Bool) (k : ℕ) :
    ∀ l : List α, (∀ x ∈ l, q x = false → g x = 0) → (∀ x ∈ l, g x ≤ k) →
      (l.map g).sum ≤ k * l.countP q := by
  intro l
  induction l with
  | nil => intro _ _; simp
  | cons a t ih =>
    intro h0 hk
    have ht := ih (fun x hx => h0 x (List.mem_cons_of_mem a hx))
      (fun x hx => hk x (List.mem_cons_of_mem a hx))
    simp only [List.map_cons, List.sum_cons, List.countP_cons]
    cases hqa : q a
    · have hz : g a = 0 := h0 a (List.mem_cons_self a t) hqa
      simp only [hqa, Bool.false_eq_true, if_false, hz, Nat.zero_add, Nat.add_zero]
      exact ht
    · have hb : g a ≤ k := hk a (List.mem_cons_self a t)
      simp only [hqa, if_true, Nat.mul_add, Nat.mul_one]
      omega

theorem nodup_map_index_inj {α β : Type} {f : α → β} {l : List α}
    (h : (l.map f).Nodup) {i1 i2 : ℕ} (h1 : i1 < l.length) (h2 : i2 < l.length)
    (he : f (l[i1]) = f (l[i2])) : i1 = i2 := by
  have hm1 : i1 < (l.map f).length := by simpa using h1
  have hm2 : i2 < (l.map f).length := by simpa using h2
  have key : (l.map f)[i1] = (l.map f)[i2] := by
    simp only [List.getElem_map]
    exact he
  exact (List.Nodup.getElem_inj_iff h).mp key

theorem flatMap_congr {α β : Type} (f g : α → List β) :
    ∀ l : List α, (∀ a ∈ l, f a = g a) → l.flatMap f = l.flatMap g := by
  intro l
  induction l with
  | nil => intro _; rfl
  | cons a t ih =>
    intro h
    simp only [List.flatMap_cons, h a (List.mem_cons_self a t),
      ih (fun x hx => h x (List.mem_cons_of_mem a hx))]

theorem mem_zip_zip {α β γ : Type} {l₁ : List α} {l₂ : List β} {l₃ : List γ}
    {x : α × β × γ} (hx : x ∈ l₁.zip (l₂.zip l₃)) :
    ∃ i, ∃ (h1 : i < l₁.length) (h2 : i < l₂.length) (h3 : i < l₃.length),
      x = (l₁[i], l₂[i], l₃[i]) := by
  rcases List.mem_iff_getElem.mp hx with ⟨i, hi, hxi⟩
  have hb := hi
  rw [List.length_zip, List.length_zip] at hb
  refine ⟨i, by omega, by omega, by omega, ?_⟩
  rw [List.getElem_zip, List.getElem_zip] at hxi
  exact hxi.symm

theorem tupKey_lt_of_components {t u : Tup} (hw : u.1 = t.1) (hd : u.2.1 = t.2.1)
    (hid : u.2.2.1 < t.2.2.1) : tupKey u < tupKey t := by
  unfold tupKey
  rw [Prod.Lex.lt_iff]
  right
  refine ⟨hw, ?_⟩
  rw [Prod.Lex.lt_iff]
  right
  refine ⟨hd, ?_⟩
  rw [Prod.Lex.lt_iff]
  left
  exact hid

theorem tupGe_id_le {a b : Tup} (h : tupGe a b) (hw : a.1 = b.1) (hd : a.2.1 = b.2.1) :
    b.2.2.1 ≤ a.2.2.1 := by
  unfold tupGe tupKey at h
  rw [Prod.Lex.le_iff] at h
  rcases h with h | ⟨h1, h2⟩
  · rw [hw] at h
    exact absurd h (lt_irrefl _)
  · rw [Prod.Lex.le_iff] at h2
    rcases h2 with h2 | ⟨h2a, h2b⟩
    · simp only [hd] at h2
      exact absurd h2 (lt_irrefl _)
    · rw [Prod.Lex.le_iff] at h2b
      rcases h2b with h3 | ⟨h3a, _⟩
      · exact le_of_lt h3
      · exact le_of_eq h3a

theorem floorStd_pos (x : ℚ) : 0 < floorStd x := by
  unfold floorStd
  split
  · norm_num
  · linarith [not_le.mp (by assumption : ¬ x ≤ 1 / 1000000)]

theorem listMax_le_iff {c : ℚ} (hc : 0 ≤ c) :
    ∀ l : List ℚ, (listMax l ≤ c ↔ ∀ x ∈ l, x ≤ c) := by
  intro l
  induction l with
  | nil => simpa [listMax]
  | cons a t ih =>
    cases t with
    | nil => simp [listMax]
    | cons b s =>
      rw [show listMax (a :: b :: s) = max a (listMax (b :: s)) from rfl]
      rw [max_le_iff]
      constructor
      · rintro ⟨ha, hrest⟩ x hx
        rcases List.mem_cons.mp hx with rfl | hx
        · exact ha
        · exact (ih.mp hrest) x hx
      · intro hall
        exact ⟨hall a (List.mem_cons_self a (b :: s)),
          ih.mpr (fun x hx => hall x (List.mem_cons_of_mem a hx))⟩

/-- C1: every produced link stores as weight exactly the IoU of the
translated target bounding box against the source bounding box minus
`distance_weight` times the aligned, scaled distance between the two
nodes, its source id is the current-time candidate id, and its target id
is the next-time node id. -/
theorem claim_C1 {env : ProcEnv} {cfg : LinkingConfig} {cns nns : List Node}
    {shiftRows : List (List ℚ)} {scale : Option (List ℚ)} {links : List Link}
    (hres : processLinks env cfg cns nns shiftRows scale = some links)
    {lk : Link} (hmem : lk ∈ links) :
    ∃ i j, i < nns.length ∧ j < cns.length ∧
      lk.weight = env.iou
          (translateNode (nDim nns) (takeRight (nDim nns) (shiftRows.getD i []))
            (nns.getD i dummyNode))
          (cns.getD j dummyNode)
        - cfg.distance_weight *
            env.dist ((cposArr scale (nDim nns) cns).getD j [])
                     ((nposArr scale (nDim nns) nns shiftRows).getD i []) ∧
      lk.source_id = (cns.getD j dummyNode).id ∧
      lk.target_id = (nns.getD i dummyNode).id := by
  rcases links_inversion hres hmem with ⟨i, j, dv, hi, _, hj, hdval, _, _, hlk⟩
  refine ⟨i, j, hi, hj, ?_, ?_, ?_⟩
  · rw [hlk, ← hdval]
  · rw [hlk]
  · rw [hlk]

/-- C4: within the output of one next-time node the kept tuples are in
descending lexicographic key order (score first, then negated distance,
then the current-candidate identifier), and rerunning the computation on
identical inputs gives identical output. -/
theorem claim_C4 (env : ProcEnv) (cfg : LinkingConfig) (cns : List Node)
    (transNd rawNd : Node) (row : List QEntry) (nns : List Node)
    (shiftRows : List (List ℚ)) (scale : Option (List ℚ)) :
    (nodeNeighborhood env cfg cns transNd rawNd row).Pairwise tupGe ∧
    processLinks env cfg cns nns shiftRows scale =
      processLinks env cfg cns nns shiftRows scale := by
  refine ⟨?_, rfl⟩
  have hp := pairwise_sortByKey tupGeb tupGeb_total tupGeb_trans
    (nodeTuples env cfg cns transNd rawNd row)
  have hp2 := hp.sublist (List.take_sublist cfg.max_neighbors _)
  exact hp2.imp (fun h => of_decide_eq_true h)

/-- C5: with image sources supplied, a candidate passes the color filter
iff every channel of |next feature − current feature| divided by the
floored standard deviation is at most the threshold (the maximum over
channels is at most the threshold); standard deviations at or below 1e-6
are floored to 1; without image sources every candidate passes. -/
theorem claim_C5 (env : ProcEnv) (cfg : LinkingConfig) (cns : List Node)
    (nd : Node) (idx : ℕ) (hthr : 0 ≤ cfg.z_score_threshold) :
    (env.colorActive = false → filteredByColor env cfg cns nd idx = true) ∧
    (env.colorActive = true →
      (filteredByColor env cfg cns nd idx = true ↔
        colorPassSpec cfg.z_score_threshold (env.nextFeat nd)
          ((currFeatTable env cns).getD idx []) (env.nextFeatStd nd))) := by
  constructor
  · intro h
    unfold filteredByColor
    rw [h]
    rfl
  · intro h
    unfold filteredByColor
    rw [h]
    simp only [if_true]
    rw [decide_eq_true_iff, listMax_le_iff hthr]
    unfold colorPassSpec
    constructor
    · intro hall i hi1 hi2 hi3
      have hlen : i < (List.zipWith (· / ·)
          (List.zipWith (· - ·) (env.nextFeat nd) ((currFeatTable env cns).getD idx []))
          ((env.nextFeatStd nd).map floorStd)).length := by
        simp only [List.length_zipWith, List.length_map]
        omega
      have hmem := List.getElem_mem hlen
      have hval : (List.zipWith (· / ·)
          (List.zipWith (· - ·) (env.nextFeat nd) ((currFeatTable env cns).getD idx []))
          ((env.nextFeatStd nd).map floorStd))[i] =
          ((env.nextFeat nd).getD i 0 - ((currFeatTable env cns).getD idx []).getD i 0)
            / floorStd ((env.nextFeatStd nd).getD i 0) := by
        rw [List.getElem_zipWith, List.getElem_zipWith, List.getElem_map,
          List.getD_eq_getElem _ _ hi1, List.getD_eq_getElem _ _ hi2,
          List.getD_eq_getElem _ _ hi3]
      have habs := hall _ (List.mem_map_of_mem (fun q => |q|) hmem)
      simp only [hval, abs_div, abs_of_pos (floorStd_pos _)] at habs
      exact habs
    · intro hspec y hy
      rcases List.mem_map.mp hy with ⟨x, hx, rfl⟩
      rcases List.mem_iff_getElem.mp hx with ⟨i, hi, hxi⟩
      have hb := hi
      simp only [List.length_zipWith, List.length_map, lt_min_iff] at hb
      have hi1 : i < (env.nextFeat nd).length := hb.1.1
      have hi2 : i < ((currFeatTable env cns).getD idx []).length := hb.1.2
      have hi3 : i < (env.nextFeatStd nd).length := hb.2
      have hval : (List.zipWith (· / ·)
          (List.zipWith (· - ·) (env.nextFeat nd) ((currFeatTable env cns).getD idx []))
          ((env.nextFeatStd nd).map floorStd))[i] =
          ((env.nextFeat nd).getD i 0 - ((currFeatTable env cns).getD idx []).getD i 0)
            / floorStd ((env.nextFeatStd nd).getD i 0) := by
        rw [List.getElem_zipWith, List.getElem_zipWith, List.getElem_map,
          List.getD_eq_getElem _ _ hi1, List.getD_eq_getElem _ _ hi2,
          List.getD_eq_getElem _ _ hi3]
      have hx2 := hxi.symm.trans hval
      show |x| ≤ cfg.z_score_threshold
      rw [hx2, abs_div, abs_of_pos (floorStd_pos _)]
      exact hspec i hi1 hi2 hi3

/-- C9: every neighbor index produced by the bounded-radius query,
including the sentinel index equal to the number of current nodes, is a
valid row index into the current-feature table with its appended zero row;
and every tuple that survives the eligibility filter refers to an actual
current node, so a sentinel slot never contributes a link. -/
theorem claim_C9 (env : ProcEnv) (cfg : LinkingConfig) (cns : List Node)
    (scale : Option (List ℚ)) (D : ℕ) (p : List ℚ) (k : ℕ) (b : ℚ)
    (transNd rawNd : Node) :
    (∀ e ∈ queryKD env.dist (cposArr scale D cns) p k b,
      e.2 < (currFeatTable env cns).length) ∧
    (∀ t ∈ nodeTuples env cfg cns transNd rawNd
        (queryKD env.dist (cposArr scale D cns) p k b),
      ∃ j, j < cns.length ∧ t.2.2.1 = (cns.getD j dummyNode).id) := by
  constructor
  · intro e he
    rw [length_currFeatTable]
    rcases mem_queryKD he with hsent | ⟨j, hj, hej, _⟩
    · rw [hsent]
      simp only [length_cposArr]
      omega
    · rw [hej]
      simp only []
      rw [length_cposArr] at hj
      omega
  · intro t ht
    rcases mem_nodeTuples ht with ⟨e, he, dv, hdv, _, rfl⟩
    rcases mem_queryKD he with hsent | ⟨j, hj, hej, _⟩
    · rw [hsent] at hdv
      cases hdv
    · refine ⟨j, by rw [length_cposArr] at hj; exact hj, ?_⟩
      rw [hej]

/-- C10: among candidates of one next-time node tying on both score and
distance, the one with the larger current-node identifier is ordered
first, and is kept in preference when truncating to `max_neighbors`. -/
theorem claim_C10 {env : ProcEnv} {cfg : LinkingConfig} {cns : List Node}
    {transNd rawNd : Node} {row : List QEntry} {t u : Tup}
    (ht : t ∈ nodeTuples env cfg cns transNd rawNd row)
    (hu : u ∈ nodeNeighborhood env cfg cns transNd rawNd row)
    (hw : t.1 = u.1) (hd : t.2.1 = u.2.1) (hid : u.2.2.1 < t.2.2.1) :
    t ∈ nodeNeighborhood env cfg cns transNd rawNd row ∧
    (nodeNeighborhood env cfg cns transNd rawNd row).Pairwise
      (fun a b => a.1 = b.1 → a.2.1 = b.2.1 → b.2.2.1 ≤ a.2.2.1) := by
  have hsorted := pairwise_sortByKey tupGeb tupGeb_total tupGeb_trans
    (nodeTuples env cfg cns transNd rawNd row)
  constructor
  · unfold nodeNeighborhood at hu ⊢
    by_contra hnot
    have hts : t ∈ sortByKey tupGeb (nodeTuples env cfg cns transNd rawNd row) :=
      (mem_sortByKey tupGeb t _).mpr ht
    rw [← List.take_append_drop cfg.max_neighbors
      (sortByKey tupGeb (nodeTuples env cfg cns transNd rawNd row))] at hts hsorted
    rcases List.mem_append.mp hts with h | h
    · exact absurd h hnot
    · have hcross := (List.pairwise_append.mp hsorted).2.2 u hu t h
      have hle : tupKey t ≤ tupKey u := of_decide_eq_true hcross
      have hlt : tupKey u < tupKey t :=
        tupKey_lt_of_components hw.symm hd.symm hid
      exact absurd (lt_of_lt_of_le hlt hle) (lt_irrefl _)
  · have hp := hsorted.sublist (List.take_sublist cfg.max_neighbors _)
    exact hp.imp (fun hab hw' hd' => tupGe_id_le (of_decide_eq_true hab) hw' hd')

theorem countP_eq_of_nodup {α : Type} [DecidableEq α] {l : List α} (h : l.Nodup) (a : α) :
    l.countP (fun x => decide (x = a)) ≤ 1 := by
  induction l with
  | nil => simp
  | cons b t ih =>
    rw [List.countP_cons]
    rcases List.nodup_cons.mp h with ⟨hb, ht⟩
    by_cases hba : b = a
    · subst hba
      have hz : t.countP (fun x => decide (x = b)) = 0 :=
        List.countP_eq_zero.mpr (fun x hx hdec => hb (by rw [of_decide_eq_true hdec] at hx; exact hx))
      simp [hz]
    · simp only [decide_eq_false hba, Bool.false_eq_true, if_false, Nat.add_zero]
      exact ih ht

/-- C2: for every next-time node, the number of links that one run of
`_process` produces with that node as target is at most `max_neighbors`. -/
theorem claim_C2 {env : ProcEnv} {cfg : LinkingConfig} {cns nns : List Node}
    {shiftRows : List (List ℚ)} {scale : Option (List ℚ)} {links : List Link}
    (hlen : shiftRows.length = nns.length)
    (hnodup : (nns.map Node.id).Nodup)
    (hres : processLinks env cfg cns nns shiftRows scale = some links)
    (i : ℕ) (hi : i < nns.length) :
    links.countP (fun lk => decide (lk.target_id = (nns.getD i dummyNode).id)) ≤
      cfg.max_neighbors := by
  simp only [processLinks] at hres
  split at hres
  · cases hres
  split at hres
  · cases hres
  split at hres
  · cases hres
  injection hres with hres
  subst hres
  rw [List.countP_map, countP_flatMap]
  have hstep := sum_le_of_chunks
    (fun x : Node × List ℚ × List QEntry =>
      (nodeNeighborhood env cfg cns (translateNode (nDim nns) x.2.1 x.1) x.1 x.2.2).countP
        ((fun lk : Link => decide (lk.target_id = (nns.getD i dummyNode).id)) ∘
          (fun t : Tup => (⟨t.1, t.2.2.1, t.2.2.2⟩ : Link))))
    (fun x : Node × List ℚ × List QEntry => decide (x.1.id = (nns.getD i dummyNode).id))
    cfg.max_neighbors
    (nns.zip ((truncShifts (nDim nns) shiftRows).zip
      ((nposArr scale (nDim nns) nns shiftRows).map
        (fun p => queryKD env.dist (cposArr scale (nDim nns) cns) p
          (2 * cfg.max_neighbors) cfg.max_distance))))
    (by
      intro x _ hq
      apply List.countP_eq_zero.mpr
      intro t htm hdec
      have htup := nodeTuples_target (mem_nodeNeighborhood htm)
      rw [translateNode_id] at htup
      have hteq : t.2.2.2 = (nns.getD i dummyNode).id := of_decide_eq_true hdec
      rw [htup] at hteq
      have hq' : decide (x.1.id = (nns.getD i dummyNode).id) = false := hq
      rw [hteq] at hq'
      simp at hq')
    (by
      intro x _
      exact le_trans (List.countP_le_length _) (length_nodeNeighborhood env cfg cns _ _ _))
  refine le_trans hstep ?_
  have hzl : (nns.zip ((truncShifts (nDim nns) shiftRows).zip
      ((nposArr scale (nDim nns) nns shiftRows).map
        (fun p => queryKD env.dist (cposArr scale (nDim nns) cns) p
          (2 * cfg.max_neighbors) cfg.max_distance)))).countP
        (fun x => decide (x.1.id = (nns.getD i dummyNode).id)) ≤ 1 := by
    have hfst : (nns.zip ((truncShifts (nDim nns) shiftRows).zip
        ((nposArr scale (nDim nns) nns shiftRows).map
          (fun p => queryKD env.dist (cposArr scale (nDim nns) cns) p
            (2 * cfg.max_neighbors) cfg.max_distance)))).map Prod.fst = nns := by
      apply List.map_fst_zip
      simp only [List.length_zip, List.length_map, length_nposArr, truncShifts, hlen]
      omega
    have hc1 := List.countP_map
      (fun nd : Node => decide (nd.id = (nns.getD i dummyNode).id)) (Prod.fst)
      (nns.zip ((truncShifts (nDim nns) shiftRows).zip
        ((nposArr scale (nDim nns) nns shiftRows).map
          (fun p => queryKD env.dist (cposArr scale (nDim nns) cns) p
            (2 * cfg.max_neighbors) cfg.max_distance))))
    rw [hfst] at hc1
    show List.countP
      ((fun nd : Node => decide (nd.id = (nns.getD i dummyNode).id)) ∘ Prod.fst) _ ≤ 1
    rw [← hc1]
    have hc2 := List.countP_map
      (fun z : ℤ => decide (z = (nns.getD i dummyNode).id)) Node.id nns
    calc nns.countP (fun nd => decide (nd.id = (nns.getD i dummyNode).id))
        = (nns.map Node.id).countP (fun z => decide (z = (nns.getD i dummyNode).id)) := by
          rw [hc2]; rfl
      _ ≤ 1 := countP_eq_of_nodup hnodup _
  calc cfg.max_neighbors * (nns.zip ((truncShifts (nDim nns) shiftRows).zip
        ((nposArr scale (nDim nns) nns shiftRows).map
          (fun p => queryKD env.dist (cposArr scale (nDim nns) cns) p
            (2 * cfg.max_neighbors) cfg.max_distance)))).countP
          (fun x => decide (x.1.id = (nns.getD i dummyNode).id))
      ≤ cfg.max_neighbors * 1 := Nat.mul_le_mul_left _ hzl
    _ = cfg.max_neighbors := Nat.mul_one _

/-- C3: a pair of nodes whose aligned, scaled distance exceeds
`max_distance` never appears as a finite-distance entry of the query row,
and no link between the two nodes is ever produced; a candidate yields a
link only through a finite-distance, color-passing slot. -/
theorem claim_C3 {env : ProcEnv} {cfg : LinkingConfig} {cns nns : List Node}
    {shiftRows : List (List ℚ)} {scale : Option (List ℚ)} (i j : ℕ)
    (hi : i < nns.length) (hj : j < cns.length)
    (hcn : (cns.map Node.id).Nodup) (hnn : (nns.map Node.id).Nodup)
    (hd : cfg.max_distance < env.dist ((cposArr scale (nDim nns) cns).getD j [])
          ((nposArr scale (nDim nns) nns shiftRows).getD i [])) :
    (∀ e ∈ queryKD env.dist (cposArr scale (nDim nns) cns)
        ((nposArr scale (nDim nns) nns shiftRows).getD i [])
        (2 * cfg.max_neighbors) cfg.max_distance, e.2 = j → e.1 = none) ∧
    (∀ links, processLinks env cfg cns nns shiftRows scale = some links →
      ∀ lk ∈ links, ¬ (lk.source_id = (cns.getD j dummyNode).id ∧
                       lk.target_id = (nns.getD i dummyNode).id)) := by
  constructor
  · intro e he hej
    rcases mem_queryKD he with hsent | ⟨j', hj', hej', hb⟩
    · rw [hsent]
    · exfalso
      rw [hej'] at hej
      simp only [] at hej
      rw [hej] at hb
      exact absurd hb (not_le.mpr hd)
  · rintro links hres lk hmem ⟨hsrc, htgt⟩
    rcases links_inversion hres hmem with ⟨i', j', dv, hi', _, hj', hdval, hble, _, hlk⟩
    subst hlk
    have hsrc' : (cns.getD j' dummyNode).id = (cns.getD j dummyNode).id := hsrc
    have htgt' : (nns.getD i' dummyNode).id = (nns.getD i dummyNode).id := htgt
    rw [List.getD_eq_getElem cns dummyNode hj', List.getD_eq_getElem cns dummyNode hj] at hsrc'
    rw [List.getD_eq_getElem nns dummyNode hi', List.getD_eq_getElem nns dummyNode hi] at htgt'
    have hjj : j' = j := nodup_map_index_inj hcn hj' hj hsrc'
    have hii : i' = i := nodup_map_index_inj hnn hi' hi htgt'
    rw [hjj, hii] at hdval
    rw [hdval] at hble
    exact absurd hble (not_le.mpr hd)

/-- C6: the specification requires the degenerate inputs (empty
current-time node set, empty next-time node set, or zero eligible
candidates everywhere) to succeed with an empty link batch, but on each of
them `_process` raises (an IndexError at `next_pos.shape[1]`, a ValueError
building the KDTree over empty 1-D data, and an IndexError indexing
`np.asarray([])` with two axes, respectively); the model accordingly
returns `none`, never an empty batch. -/
theorem claim_C6 :
    processLinks envW cfgW [] [nodeC] [[0, 0, 0]] none = none ∧
    processLinks envW cfgW [nodeA] [] [] none = none ∧
    processLinks envW cfgW [nodeB] [nodeC] [[0, 0, 0]] none = none := by
  refine ⟨rfl, rfl, ?_⟩
  norm_num [processLinks, cposArr, nposArr, applyScale, rawNextPos, truncShifts, nDim,
    queryKD, sortByKey, insertGe, entryLeb, nodeNeighborhood, nodeTuples, filteredByColor,
    currFeatTable, translateNode, translateBBox, roundHalfEven, takeRight, listMax,
    envW, cfgW, nodeB, nodeC, dummyNode, tupGeb, tupGe, tupKey,
    List.range_succ, List.filterMap_append, List.filterMap_cons, List.getD]

theorem filteredByColor_congr {env env' : ProcEnv} {cfg : LinkingConfig}
    {cns : List Node} {nd : Node}
    (hact : env'.colorActive = env.colorActive) (hcf : env'.currFeat = env.currFeat)
    (hf : env'.nextFeat nd = env.nextFeat nd)
    (hs : env'.nextFeatStd nd = env.nextFeatStd nd) (idx : ℕ) :
    filteredByColor env' cfg cns nd idx = filteredByColor env cfg cns nd idx := by
  unfold filteredByColor currFeatTable
  rw [hact, hcf, hf, hs]

theorem nodeNeighborhood_congr {env env' : ProcEnv} {cfg : LinkingConfig}
    {cns : List Node} {transNd rawNd : Node} {row : List QEntry}
    (hcol : ∀ idx, filteredByColor env' cfg cns rawNd idx =
      filteredByColor env cfg cns rawNd idx)
    (hio : ∀ c : Node, env'.iou transNd c = env.iou transNd c) :
    nodeNeighborhood env' cfg cns transNd rawNd row =
      nodeNeighborhood env cfg cns transNd rawNd row := by
  unfold nodeNeighborhood nodeTuples
  have hfil : row.filter (fun e => e.1.isSome && filteredByColor env' cfg cns rawNd e.2) =
      row.filter (fun e => e.1.isSome && filteredByColor env cfg cns rawNd e.2) :=
    List.filter_congr (fun e _ => by rw [hcol e.2])
  rw [hfil]
  have hm : (row.filter
        (fun e => e.1.isSome && filteredByColor env cfg cns rawNd e.2)).filterMap
      (fun e => e.1.map (fun dv =>
        ((env'.iou transNd (cns.getD e.2 dummyNode) - cfg.distance_weight * dv,
          -dv, (cns.getD e.2 dummyNode).id, transNd.id) : Tup))) =
      (row.filter
        (fun e => e.1.isSome && filteredByColor env cfg cns rawNd e.2)).filterMap
      (fun e => e.1.map (fun dv =>
        ((env.iou transNd (cns.getD e.2 dummyNode) - cfg.distance_weight * dv,
          -dv, (cns.getD e.2 dummyNode).id, transNd.id) : Tup))) := by
    apply List.filterMap_congr
    intro e _
    cases he1 : e.1 with
    | none => rfl
    | some dv =>
      simp only [Option.map_some']
      rw [hio]
  rw [hm]

/-- C7: the output of `_process` reads the image features of next-time
nodes only at their untranslated geometry and the overlap score only at
their translated geometry: changing the feature functions anywhere else,
or the overlap score anywhere else, does not change any produced link. -/
theorem claim_C7 {env env' : ProcEnv} {cfg : LinkingConfig} {cns nns : List Node}
    {shiftRows : List (List ℚ)} {scale : Option (List ℚ)}
    (hdist : env'.dist = env.dist) (hact : env'.colorActive = env.colorActive)
    (hcf : env'.currFeat = env.currFeat)
    (hfeat : ∀ i, i < nns.length →
      env'.nextFeat (nns.getD i dummyNode) = env.nextFeat (nns.getD i dummyNode) ∧
      env'.nextFeatStd (nns.getD i dummyNode) = env.nextFeatStd (nns.getD i dummyNode))
    (hiou : ∀ i, i < nns.length → i < shiftRows.length → ∀ c : Node,
      env'.iou (translateNode (nDim nns) (takeRight (nDim nns) (shiftRows.getD i []))
        (nns.getD i dummyNode)) c =
      env.iou (translateNode (nDim nns) (takeRight (nDim nns) (shiftRows.getD i []))
        (nns.getD i dummyNode)) c) :
    processLinks env' cfg cns nns shiftRows scale =
      processLinks env cfg cns nns shiftRows scale := by
  simp only [processLinks, hdist]
  have hfm : (nns.zip ((truncShifts (nDim nns) shiftRows).zip
      ((nposArr scale (nDim nns) nns shiftRows).map
        (fun p => queryKD env.dist (cposArr scale (nDim nns) cns) p
          (2 * cfg.max_neighbors) cfg.max_distance)))).flatMap
        (fun x => nodeNeighborhood env' cfg cns
          (translateNode (nDim nns) x.2.1 x.1) x.1 x.2.2) =
      (nns.zip ((truncShifts (nDim nns) shiftRows).zip
      ((nposArr scale (nDim nns) nns shiftRows).map
        (fun p => queryKD env.dist (cposArr scale (nDim nns) cns) p
          (2 * cfg.max_neighbors) cfg.max_distance)))).flatMap
        (fun x => nodeNeighborhood env cfg cns
          (translateNode (nDim nns) x.2.1 x.1) x.1 x.2.2) := by
    apply flatMap_congr
    intro x hx
    rcases mem_zip_zip hx with ⟨i, h1, h2, h3, rfl⟩
    have h2s : i < shiftRows.length := by
      simpa [truncShifts] using h2
    apply nodeNeighborhood_congr
    · intro idx
      have hf := hfeat i h1
      rw [List.getD_eq_getElem nns dummyNode h1] at hf
      exact filteredByColor_congr hact hcf hf.1 hf.2 idx
    · intro c
      have hio := hiou i h1 h2s c
      rw [List.getD_eq_getElem nns dummyNode h1,
        List.getD_eq_getElem shiftRows [] h2s] at hio
      have hts : (truncShifts (nDim nns) shiftRows)[i] =
          takeRight (nDim nns) (shiftRows[i]) := by
        simp [truncShifts]
      rw [hts]
      exact hio
  rw [hfm]

/-- C8: only the trailing D components of the stored shift rows influence
the computation: if two shift tables agree after truncation to the
trailing D components, the corrected next-time positions and every
produced link coincide. -/
theorem claim_C8 {env : ProcEnv} {cfg : LinkingConfig} {cns nns : List Node}
    {scale : Option (List ℚ)} {shiftRows shiftRows' : List (List ℚ)}
    (h : truncShifts (nDim nns) shiftRows' = truncShifts (nDim nns) shiftRows) :
    nposArr scale (nDim nns) nns shiftRows' = nposArr scale (nDim nns) nns shiftRows ∧
    processLinks env cfg cns nns shiftRows' scale =
      processLinks env cfg cns nns shiftRows scale := by
  have hnp : nposArr scale (nDim nns) nns shiftRows' =
      nposArr scale (nDim nns) nns shiftRows := by
    unfold nposArr rawNextPos
    rw [h]
  refine ⟨hnp, ?_⟩
  simp only [processLinks]
  rw [h, hnp]

/-! ### Witnesses at concrete inputs -/

theorem procW_eval :
    processLinks envW cfgW [nodeA, nodeB] [nodeC] [[0, 0, 0]] none =
      some [⟨2 / 5, 1, 3⟩] := by
  norm_num [processLinks, cposArr, nposArr, applyScale, rawNextPos, truncShifts, nDim,
    queryKD, sortByKey, insertGe, entryLeb, nodeNeighborhood, nodeTuples, filteredByColor,
    currFeatTable, translateNode, translateBBox, roundHalfEven, takeRight, listMax,
    envW, cfgW, nodeA, nodeB, nodeC, dummyNode, tupGeb, tupGe, tupKey,
    List.range_succ, List.filterMap_append, List.filterMap_cons, List.getD]

/-- Witness for C1: the single link produced in the concrete scenario. -/
theorem claim_C1_witness :
    ∃ i j, i < ([nodeC] : List Node).length ∧ j < ([nodeA, nodeB] : List Node).length ∧
      (⟨2 / 5, 1, 3⟩ : Link).weight = envW.iou
          (translateNode (nDim [nodeC])
            (takeRight (nDim [nodeC]) (([[0, 0, 0]] : List (List ℚ)).getD i []))
            (([nodeC] : List Node).getD i dummyNode))
          (([nodeA, nodeB] : List Node).getD j dummyNode)
        - cfgW.distance_weight *
            envW.dist ((cposArr none (nDim [nodeC]) [nodeA, nodeB]).getD j [])
                      ((nposArr none (nDim [nodeC]) [nodeC] [[0, 0, 0]]).getD i []) ∧
      (⟨2 / 5, 1, 3⟩ : Link).source_id = (([nodeA, nodeB] : List Node).getD j dummyNode).id ∧
      (⟨2 / 5, 1, 3⟩ : Link).target_id = (([nodeC] : List Node).getD i dummyNode).id :=
  claim_C1 procW_eval (List.mem_singleton.mpr rfl)

/-- Witness for C2 at the concrete scenario. -/
theorem claim_C2_witness :
    ([(⟨2 / 5, 1, 3⟩ : Link)] : List Link).countP
      (fun lk => decide (lk.target_id = (([nodeC] : List Node).getD 0 dummyNode).id)) ≤
      cfgW.max_neighbors :=
  claim_C2 (by decide) (by decide) procW_eval 0 (by decide)

/-- Witness for C3: `nodeB` is beyond the radius from `nodeC`. -/
theorem claim_C3_witness :
    (∀ e ∈ queryKD envW.dist (cposArr none (nDim [nodeC]) [nodeA, nodeB])
        ((nposArr none (nDim [nodeC]) [nodeC] [[0, 0, 0]]).getD 0 [])
        (2 * cfgW.max_neighbors) cfgW.max_distance, e.2 = 1 → e.1 = none) ∧
    (∀ links, processLinks envW cfgW [nodeA, nodeB] [nodeC] [[0, 0, 0]] none = some links →
      ∀ lk ∈ links, ¬ (lk.source_id = (([nodeA, nodeB] : List Node).getD 1 dummyNode).id ∧
                       lk.target_id = (([nodeC] : List Node).getD 0 dummyNode).id)) :=
  claim_C3 0 1 (by decide) (by decide) (by decide) (by decide)
    (by norm_num [cposArr, nposArr, applyScale, rawNextPos, truncShifts, nDim, takeRight,
      listMax, envW, cfgW, nodeA, nodeB, nodeC, dummyNode, List.getD])

/-- Witness for C5 with color filtering active and one channel. -/
theorem claim_C5_witness :
    (envC.colorActive = false → filteredByColor envC cfgW [nodeA] nodeC 0 = true) ∧
    (envC.colorActive = true →
      (filteredByColor envC cfgW [nodeA] nodeC 0 = true ↔
        colorPassSpec cfgW.z_score_threshold (envC.nextFeat nodeC)
          ((currFeatTable envC [nodeA]).getD 0 []) (envC.nextFeatStd nodeC))) :=
  claim_C5 envC cfgW [nodeA] nodeC 0 (by decide)

/-- Witness for C7: features that differ only on translated geometry leave
the output unchanged. -/
theorem claim_C7_witness :
    processLinks envSeven cfgW [nodeA] [nodeC] [[0, 0, 10]] none =
      processLinks envC cfgW [nodeA] [nodeC] [[0, 0, 10]] none :=
  claim_C7 rfl rfl rfl
    (by
      intro i hi
      have hi' : i < 1 := by simpa using hi
      obtain rfl : i = 0 := by omega
      exact ⟨by decide, rfl⟩)
    (fun i hi his c => rfl)

/-- Witness for C8: shift rows differing only in the leading component. -/
theorem claim_C8_witness :
    truncShifts (nDim [nodeC]) [[9, 1, 2]] = truncShifts (nDim [nodeC]) [[0, 1, 2]] ∧
    (nposArr none (nDim [nodeC]) [nodeC] [[9, 1, 2]] =
        nposArr none (nDim [nodeC]) [nodeC] [[0, 1, 2]] ∧
      processLinks envW cfgW [nodeA, nodeB] [nodeC] [[9, 1, 2]] none =
        processLinks envW cfgW [nodeA, nodeB] [nodeC] [[0, 1, 2]] none) :=
  ⟨by decide, claim_C8 (by decide)⟩

/-- Witness for C10: two candidates tying on score and distance, where the
larger identifier is ranked first and kept. -/
theorem claim_C10_witness :
    ((0 : ℚ), (-1 : ℚ), (2 : ℤ), (5 : ℤ)) ∈
      nodeNeighborhood envTie cfgTie cnsTie nodeTie nodeTie
        (queryKD envTie.dist (cposArr none 1 cnsTie) [0]
          (2 * cfgTie.max_neighbors) cfgTie.max_distance) ∧
    (nodeNeighborhood envTie cfgTie cnsTie nodeTie nodeTie
        (queryKD envTie.dist (cposArr none 1 cnsTie) [0]
          (2 * cfgTie.max_neighbors) cfgTie.max_distance)).Pairwise
      (fun a b => a.1 = b.1 → a.2.1 = b.2.1 → b.2.2.1 ≤ a.2.2.1) :=
  by
  have ht : ((0 : ℚ), (-1 : ℚ), (2 : ℤ), (5 : ℤ)) ∈
      nodeTuples envTie cfgTie cnsTie nodeTie nodeTie
        (queryKD envTie.dist (cposArr none 1 cnsTie) [0]
          (2 * cfgTie.max_neighbors) cfgTie.max_distance) := by
    norm_num [nodeTuples, queryKD, sortByKey, insertGe, entryLeb, filteredByColor,
      cposArr, applyScale, takeRight, listMax, envTie, envW, cfgTie, cnsTie, nodeTie,
      dummyNode, List.range_succ, List.filterMap_append, List.filterMap_cons, List.getD]
  have hu : ((0 : ℚ), (-1 : ℚ), (1 : ℤ), (5 : ℤ)) ∈
      nodeNeighborhood envTie cfgTie cnsTie nodeTie nodeTie
        (queryKD envTie.dist (cposArr none 1 cnsTie) [0]
          (2 * cfgTie.max_neighbors) cfgTie.max_distance) := by
    norm_num [nodeNeighborhood, nodeTuples, queryKD, sortByKey, insertGe, entryLeb,
      filteredByColor, cposArr, applyScale, takeRight, listMax, envTie, envW, cfgTie,
      cnsTie, nodeTie, dummyNode, tupGeb, tupGe, tupKey, Prod.Lex.le_iff, Prod.Lex.lt_iff,
      List.range_succ, List.filterMap_append, List.filterMap_cons, List.getD]
  exact claim_C10 ht hu rfl rfl (by decide)

end Ultrack

